import Mathlib

/-!
# Verification of the blend2d-rs ownership and container core

Shallow embedding of `src/array.rs`, `src/codec.rs` and `src/glyph_buffer.rs`.
The Rust crate is a thin wrapper over the blend2d C engine: its `ffi::*` calls
(`blArrayReserve`, `blArrayResize`, `blArrayMakeMutable`, …) and the helper
modules `variant.rs` / `error.rs` / `font_defs.rs` are not part of the three
source files, so those operations are modelled from the specification's
contract for them (§4.1, §4.2, §6); each such definition says so in its doc
comment.  Everything else is translated directly from the Rust source.
-/

namespace Blend2d

/-! ## Shape tags (`ImplType`, from `variant.rs`, and the `impl_array_type!`
bindings of `src/array.rs`) -/

/-- Modelled from the spec: `variant.rs` (not under `src/`) defines the
`ImplType` enum of shape tags, "a compile-time or runtime shape tag identifying
the allocation's binary layout"; the spec lists distinct layout classes for
8/16/32/64-bit scalars, 32/64-bit floats, POD structs of 4/8/12/16/24 bytes,
and nested handles.  Distinct Rust enum variants have distinct discriminants,
which the inductive's distinct constructors mirror. -/
inductive ImplType where
  | Null
  | ArrayVar
  | ArrayI8
  | ArrayU8
  | ArrayI16
  | ArrayU16
  | ArrayI32
  | ArrayU32
  | ArrayI64
  | ArrayU64
  | ArrayF32
  | ArrayF64
  | ArrayStruct4
  | ArrayStruct8
  | ArrayStruct12
  | ArrayStruct16
  | ArrayStruct24
  | ImageCodecTag
  | ImageDecoderTag
  | ImageEncoderTag
  deriving DecidableEq, Repr

/-- The scalar element types instantiated by the `impl_array_type!` macro in
`src/array.rs` lines 515–522. -/
inductive ScalarType where
  | i8 | u8 | i16 | u16 | i32 | u32 | i64 | u64 | f32 | f64
  deriving DecidableEq, Repr

/-- `ArrayType::IMPL_IDX` for each scalar instantiation, read off the
`impl_array_type!` invocation at `src/array.rs:515`–`522` verbatim — note the
source binds `f64 = ImplType::ArrayF32`. -/
def IMPL_IDX : ScalarType → ImplType
  | .i8  => .ArrayI8
  | .u8  => .ArrayU8
  | .i16 => .ArrayI16
  | .u16 => .ArrayU16
  | .i32 => .ArrayI32
  | .u32 => .ArrayU32
  | .i64 => .ArrayI64
  | .u64 => .ArrayU64
  | .f32 => .ArrayF32
  | .f64 => .ArrayF32

/-- The shape tag that identifies a scalar type's own binary layout: 8/16/32/64
bit integer classes and the two float widths, as the spec's layout classes
prescribe.  Used as the reference point for the `IMPL_IDX` binding. -/
def layoutTag : ScalarType → ImplType
  | .i8  => .ArrayI8
  | .u8  => .ArrayU8
  | .i16 => .ArrayI16
  | .u16 => .ArrayU16
  | .i32 => .ArrayI32
  | .u32 => .ArrayU32
  | .i64 => .ArrayI64
  | .u64 => .ArrayU64
  | .f32 => .ArrayF32
  | .f64 => .ArrayF64

/-! ## The array container, one handle's view

A `BLArray` is the observable state of one array impl: its contiguous element
buffer and its capacity.  Engine entry points (`blArray…`) are modelled from
the spec's contract for them (§4.2, §6); the crate-level operations below them
are translated from `src/array.rs`. -/

structure BLArray (α : Type) where
  data : List α
  capacity : Nat
  deriving DecidableEq, Repr

/-- `Array::new()` (`src/array.rs:38`): the empty array backed by the "none"
sentinel, which is zero-length with no storage. -/
def Array_new (α : Type) : BLArray α := ⟨[], 0⟩

/-- `Array::len` (`src/array.rs:127`). -/
def BLArray.len (a : BLArray α) : Nat := a.data.length

/-- Out-of-memory, the single recoverable failure of the ownership layer
(`error.rs`, spec §7). -/
inductive OutOfMemory where
  | outOfMemory
  deriving DecidableEq, Repr

/-- Modelled from the spec (§4.2 `try_reserve`, §6 allocation calls):
`ffi::blArrayReserve` ensures capacity ≥ n, preserving the elements; when the
allocator cannot satisfy the request it reports OutOfMemory and mutates
nothing.  `allocOk n` stands for "the allocator can satisfy a request of `n`
slots". -/
def blArrayReserve (allocOk : Nat → Bool) (a : BLArray α) (n : Nat) :
    Except OutOfMemory Unit × BLArray α :=
  if n ≤ a.capacity then (.ok (), a)
  else if allocOk n then (.ok (), { a with capacity := n })
  else (.error .outOfMemory, a)

/-- `Array::try_reserve` (`src/array.rs:74`): forwards to `blArrayReserve` and
maps the error code through `OutOfMemory::from_errcode`. -/
def try_reserve (allocOk : Nat → Bool) (a : BLArray α) (n : Nat) :
    Except OutOfMemory Unit × BLArray α :=
  blArrayReserve allocOk a n

/-- `Array::reserve` (`src/array.rs:68`): `try_reserve` with a panic on
OutOfMemory; the embedding keeps the non-panicking trace, i.e. the state the
call leaves behind when it returns. -/
def reserve (a : BLArray α) (n : Nat) : BLArray α :=
  (blArrayReserve (fun _ => true) a n).2

/-- `Array::with_capacity` (`src/array.rs:43`): a fresh empty array with a
reservation for `cap` elements. -/
def with_capacity (α : Type) (cap : Nat) : BLArray α :=
  reserve (Array_new α) cap

/-- Modelled from the spec (§6 per-shape append primitives,
`blArrayAppendU8`/…/`blArrayAppendItem`): appends one element, growing the
capacity as needed. -/
def blArrayAppendItem (a : BLArray α) (x : α) : BLArray α :=
  { data := a.data ++ [x], capacity := max a.capacity (a.data.length + 1) }

/-- Modelled from the spec (§6 per-shape insert primitives,
`blArrayInsertU8`/…/`blArrayInsertItem`): inserts one element before position
`i`, shifting the tail right. -/
def blArrayInsertItem (a : BLArray α) (i : Nat) (x : α) : BLArray α :=
  { data := a.data.insertIdx i x, capacity := max a.capacity (a.data.length + 1) }

/-- Modelled from the spec (§6 per-shape replace primitives,
`blArrayReplaceItem`): overwrites the element at position `i`. -/
def blArrayReplaceItem (a : BLArray α) (i : Nat) (x : α) : BLArray α :=
  { a with data := a.data.set i x }

/-- Modelled from the spec (§6 bulk append, `ffi::blArrayAppendView`): appends
a borrowed contiguous view. -/
def blArrayAppendView (a : BLArray α) (xs : List α) : BLArray α :=
  { data := a.data ++ xs, capacity := max a.capacity (a.data.length + xs.length) }

/-- `Array::push` (`src/array.rs:357`) for a scalar element shape: routes to
the per-shape append primitive chosen by `impl_array_type!`
(`src/array.rs:516`–`521`, first macro slot: `blArrayAppend*`). -/
def scalarPush (a : BLArray α) (x : α) : BLArray α :=
  blArrayAppendItem a x

/-- `Array::insert` (`src/array.rs:361`) for a scalar element shape: routes to
the per-shape insert primitive chosen by `impl_array_type!`
(`src/array.rs:516`–`521`, second macro slot: `blArrayInsert*`). -/
def scalarInsert (a : BLArray α) (i : Nat) (x : α) : BLArray α :=
  blArrayInsertItem a i x

/-- `Array::replace` (`src/array.rs:365`) for a scalar element shape.  The
`impl_array_type!` invocation at `src/array.rs:516`–`521` fills the *replace*
slot of every scalar row with the *insert* entry point (`blArrayAppendU8,
blArrayInsertU8, blArrayInsertU8 for (i8 …), (u8 …)` and likewise for
16/32/64-bit and float rows), so the generated `replace` calls the insert-at
primitive. -/
def scalarReplace (a : BLArray α) (i : Nat) (x : α) : BLArray α :=
  blArrayInsertItem a i x

/-- `Array::extend_from_slice` (`src/array.rs:154`): bulk append through
`ffi::blArrayAppendView`. -/
def extend_from_slice (a : BLArray α) (xs : List α) : BLArray α :=
  blArrayAppendView a xs

/-- Modelled from the spec (§4.2 resize/truncate, `ffi::blArrayResize`): the
engine resize keeps the first `n` existing elements and, when growing, copies
the `n - len` new elements from the caller-supplied fill buffer. -/
def blArrayResize (a : BLArray α) (n : Nat) (fill : List α) : BLArray α :=
  { data := a.data.take n ++ fill.take (n - a.data.length),
    capacity := max a.capacity n }

/-- `Array::truncate` (`src/array.rs:80`): calls `blArrayResize` with
`n.min(self.len())` and a null fill pointer (never read, since the clamped
size never grows the array). -/
def truncate (a : BLArray α) (n : Nat) : BLArray α :=
  blArrayResize a (min n a.len) []

/-- `Array::resize` (`src/array.rs:92`): builds a buffer of
`n - len` (saturating) clones of `fill` and calls `blArrayResize` with it. -/
def resize (a : BLArray α) (n : Nat) (fill : α) : BLArray α :=
  blArrayResize a n (List.replicate (n - a.len) fill)

/-! ## Operation sequences for the capacity invariant (C6) -/

/-- One structural operation of the capacity-invariant claim; `tryReserve`
carries the allocator's answer for its request. -/
inductive ArrayOp (α : Type) where
  | push (x : α)
  | reserve (n : Nat)
  | tryReserve (allocOk : Bool) (n : Nat)
  | extendFromSlice (xs : List α)
  | insert (i : Nat) (x : α)
  deriving Repr

/-- Applies one operation to the array state, following the routing in
`src/array.rs` (`push`/`insert` via the scalar primitives, `reserve` and
`try_reserve` via `blArrayReserve`, `extend_from_slice` via
`blArrayAppendView`). -/
def applyOp (a : BLArray α) : ArrayOp α → BLArray α
  | .push x => scalarPush a x
  | .reserve n => reserve a n
  | .tryReserve ok n => (blArrayReserve (fun _ => ok) a n).2
  | .extendFromSlice xs => extend_from_slice a xs
  | .insert i x => scalarInsert a i x

/-- The container invariant of spec §3: length never exceeds capacity. -/
def capInv (a : BLArray α) : Prop := a.len ≤ a.capacity

instance (a : BLArray α) : Decidable (capInv a) := by
  unfold capInv; infer_instance

/-! ## Codec auto-detection (C2) -/

/-- One comparison step of Rust's `Iterator::max_by_key`: the incumbent is
kept only while its key is strictly greater, so among equal keys the later
element wins. -/
def mbkStep (key : α → Nat) (acc y : α) : α :=
  if key acc > key y then acc else y

/-- Rust's `Iterator::max_by_key` on a list: `None` on an empty iterator,
otherwise a fold of `mbkStep` — as `max_by_key` documents, "if several
elements are equally maximum, the last element is returned". -/
def maxByKey (key : α → Nat) : List α → Option α
  | [] => none
  | x :: xs => some (xs.foldl (mbkStep key) x)

/-- `Array::<ImageCodec>::find_codec_by_data` (`src/array.rs:377`–`381`):
`self.into_iter().max_by_key(|codec| codec.inspect_data(data))`.  The engine
call `inspect_data` (`codec.rs:83`, `ffi::blImageCodecInspectData`) is an
opaque scoring function, passed here as `inspect`. -/
def find_codec_by_data (inspect : κ → List Nat → Nat) (codecs : List κ)
    (blob : List Nat) : Option κ :=
  maxByKey (fun c => inspect c blob) codecs

/-! ## Reference-counted store and copy-on-write (C3, C9)

`variant.rs` (not under `src/`) and the engine own the reference-counted
backing allocations; they are modelled from spec §4.1: a shared store of
"impl"s, each an element buffer with a reference count, and thin handles that
name an impl by index. -/

/-- One backing allocation ("impl"): a buffer plus its reference count
(spec §3, Resource Handle). -/
structure BLImpl (α : Type) where
  data : List α
  refCount : Nat
  deriving DecidableEq, Repr

/-- The heap of backing allocations; an impl's identity is its index, and a
fresh allocation is appended at the end. -/
structure Store (α : Type) where
  impls : List (BLImpl α)
  deriving DecidableEq, Repr

/-- A handle value: the reference into the store (spec §3: "a thin handle
value that is memcpy-movable"). -/
structure BLHandle where
  implId : Nat
  deriving DecidableEq, Repr

/-- The contents a handle observes: the buffer of its backing allocation
(a dangling handle observes nothing). -/
def readHandle (s : Store α) (h : BLHandle) : List α :=
  match s.impls[h.implId]? with
  | some impl => impl.data
  | none => []

/-- A handle is live when its backing allocation exists and carries at least
one reference. -/
def live (s : Store α) (h : BLHandle) : Bool :=
  match s.impls[h.implId]? with
  | some impl => 1 ≤ impl.refCount
  | none => false

/-- Modelled from the spec (§4.1 `clone_shared`, and `impl Clone for Array` at
`src/array.rs:330`–`334` via `init_weak` in `variant.rs`): a clone references
the same backing allocation with an incremented reference count; O(1), no deep
copy. -/
def cloneShared (s : Store α) (h : BLHandle) : Store α × BLHandle :=
  match s.impls[h.implId]? with
  | some impl =>
      (⟨s.impls.set h.implId { impl with refCount := impl.refCount + 1 }⟩,
       ⟨h.implId⟩)
  | none => (s, h)

/-- Modelled from the spec (§4.1 `make_mutable`, called by `DerefMut` at
`src/array.rs:284`–`292` through `ffi::blArrayMakeMutable`): with a reference
count of 1 the existing allocation is returned; otherwise a fresh exclusive
copy of the contents is allocated, the old reference count is decremented, and
the handle is rebound to the new allocation. -/
def makeMutable (s : Store α) (h : BLHandle) : Store α × BLHandle :=
  match s.impls[h.implId]? with
  | some impl =>
      if impl.refCount ≤ 1 then (s, h)
      else
        (⟨(s.impls.set h.implId { impl with refCount := impl.refCount - 1 })
            ++ [⟨impl.data, 1⟩]⟩,
         ⟨s.impls.length⟩)
  | none => (s, h)

/-- Overwrites the buffer of the allocation at index `i` (the write that
follows a successful detach). -/
def setData (s : Store α) (i : Nat) (d : List α) : Store α :=
  match s.impls[i]? with
  | some impl => ⟨s.impls.set i { impl with data := d }⟩
  | none => s

/-- A mutation through one handle: `push` first realizes copy-on-write via
`makeMutable` (as every mutable view in `src/array.rs` does), then appends to
the now-exclusive buffer. -/
def pushCow (s : Store α) (h : BLHandle) (x : α) : Store α × BLHandle :=
  let sh := makeMutable s h
  (setData sh.1 sh.2.implId (readHandle sh.1 sh.2 ++ [x]), sh.2)

/-! ## Equality of handles (C9) -/

/-- `impl PartialEq for Array` (`src/array.rs:323`–`328`):
`ffi::blArrayEquals`, modelled from spec §4.1 as deep value equality of the
two buffers, regardless of which allocations back them. -/
def arrayEquals [DecidableEq α] (s : Store α) (h1 h2 : BLHandle) : Bool :=
  readHandle s h1 = readHandle s h2

/-- `impl_equals` (`variant.rs`, not under `src/`), modelled from spec §4.1's
codec-handle override: identity of the backing allocation. -/
def impl_equals (h1 h2 : BLHandle) : Bool :=
  h1.implId == h2.implId

/-- `impl PartialEq for ImageCodec` (`src/codec.rs:163`–`168`). -/
def imageCodecEq (h1 h2 : BLHandle) : Bool := impl_equals h1 h2

/-- `impl PartialEq for ImageDecoder` (`src/codec.rs:342`–`347`). -/
def imageDecoderEq (h1 h2 : BLHandle) : Bool := impl_equals h1 h2

/-- `impl PartialEq for ImageEncoder` (`src/codec.rs:242`–`247`). -/
def imageEncoderEq (h1 h2 : BLHandle) : Bool := impl_equals h1 h2

/-! ## Codec capability checks (C8) -/

/-- The `Read`/`Write` bits of `ImageCodecFeatures` (`src/codec.rs:13`–`34`);
the remaining feature bits do not enter the capability checks. -/
structure ImageCodecFeatures where
  read : Bool
  write : Bool
  deriving DecidableEq, Repr

/-- The payload of an image codec visible to the capability checks. -/
structure ImageCodecData where
  features : ImageCodecFeatures
  deriving DecidableEq, Repr

/-- A decoder is bound to the codec that created it (`src/codec.rs:285`–`290`,
`ImageDecoder::codec`). -/
structure ImageDecoderData where
  codec : ImageCodecData
  deriving DecidableEq, Repr

/-- An encoder is bound to the codec that created it (`src/codec.rs:199`–`203`,
`ImageEncoder::codec`). -/
structure ImageEncoderData where
  codec : ImageCodecData
  deriving DecidableEq, Repr

/-- Error codes distinguished by the capability checks. -/
inductive BLError where
  | imageDecoderNotProvided
  | imageEncoderNotProvided
  deriving DecidableEq, Repr

/-- Modelled from the spec (§4.3): `ffi::blImageCodecCreateDecoder` queries the
codec for the Read capability and yields a decoder bound to it, or the
decoder-not-provided error code when the codec cannot read. -/
def blImageCodecCreateDecoder (c : ImageCodecData) :
    Except BLError ImageDecoderData :=
  if c.features.read then .ok ⟨c⟩ else .error .imageDecoderNotProvided

/-- Modelled from the spec (§4.3): `ffi::blImageCodecCreateEncoder` queries the
codec for the Write capability and yields an encoder bound to it, or the
encoder-not-provided error code when the codec cannot write. -/
def blImageCodecCreateEncoder (c : ImageCodecData) :
    Except BLError ImageEncoderData :=
  if c.features.write then .ok ⟨c⟩ else .error .imageEncoderNotProvided

/-- `ImageCodec::create_decoder` (`src/codec.rs:55`–`65`):
`errcode_to_result(ffi::blImageCodecCreateDecoder(..)).map(|_| decoder).ok()` —
the error branch is flattened into an absent value. -/
def create_decoder (c : ImageCodecData) : Option ImageDecoderData :=
  (blImageCodecCreateDecoder c).toOption

/-- `ImageCodec::create_encoder` (`src/codec.rs:68`–`78`). -/
def create_encoder (c : ImageCodecData) : Option ImageEncoderData :=
  (blImageCodecCreateEncoder c).toOption

/-! ## Glyph buffer flags (C10) -/

/-- Bit positions of `GlyphRunFlags` (`font_defs.rs`, not under `src/`),
modelled from the spec (§3 Glyph Buffer: "a flag bitset describing content
kind (raw text vs resolved glyphs) and processing errors"); the exact bit
positions are immaterial to the claims. -/
def UCS4_CONTENT_BIT : Nat := 28
def INVALID_TEXT_BIT : Nat := 29
def UNDEFINED_GLYPHS_BIT : Nat := 30
def INVALID_FONT_DATA_BIT : Nat := 31

/-- The observable state of a glyph buffer for the flag queries: the flags
word maintained by the shaping engine (`ffi::blGlyphBufferGetFlags`,
`src/glyph_buffer.rs:77`–`79`). -/
structure GlyphBufferState where
  flags : Nat
  deriving DecidableEq, Repr

/-- `GlyphBuffer::has_text` (`src/glyph_buffer.rs:83`–`85`):
`self.flags().contains(GlyphRunFlags::UCS4_CONTENT)`. -/
def has_text (g : GlyphBufferState) : Bool :=
  g.flags.testBit UCS4_CONTENT_BIT

/-- `GlyphBuffer::has_glyphs` (`src/glyph_buffer.rs:89`–`91`):
`!self.has_text()`. -/
def has_glyphs (g : GlyphBufferState) : Bool :=
  ! has_text g

/-! ## Theorems -/

/-- Claim C1.  For a scalar element shape, `replace(index, item)` is claimed
to route to the engine's replace-at primitive, overwriting in place and
keeping the length.  On the array `[1,2,3]` with `replace(0, 9)` the generated
code calls the insert-at primitive instead: the result is `[9,1,2,3]` of
length 4, while the replace-at primitive the claim names yields `[9,2,3]` of
length 3. -/
theorem C1_scalar_replace_inserts :
    scalarReplace (⟨[1, 2, 3], 4⟩ : BLArray Nat) 0 9 = ⟨[9, 1, 2, 3], 4⟩ ∧
    (scalarReplace (⟨[1, 2, 3], 4⟩ : BLArray Nat) 0 9).len = 4 ∧
    blArrayReplaceItem (⟨[1, 2, 3], 4⟩ : BLArray Nat) 0 9 = ⟨[9, 2, 3], 4⟩ ∧
    scalarReplace (⟨[1, 2, 3], 4⟩ : BLArray Nat) 0 9 ≠
      blArrayReplaceItem (⟨[1, 2, 3], 4⟩ : BLArray Nat) 0 9 := by
  refine ⟨rfl, rfl, rfl, by decide⟩

/-- Claim C5.  Each element type is claimed to carry the shape tag of its own
binary layout, with f32 and f64 tagged differently.  The source
(`src/array.rs:521`) binds `f64 = ImplType::ArrayF32`: f64's `IMPL_IDX` equals
f32's, not the 64-bit float tag `ArrayF64` of its own layout. -/
theorem C5_f64_tag_collision :
    IMPL_IDX ScalarType.f64 = ImplType.ArrayF32 ∧
    IMPL_IDX ScalarType.f64 = IMPL_IDX ScalarType.f32 ∧
    layoutTag ScalarType.f64 = ImplType.ArrayF64 ∧
    IMPL_IDX ScalarType.f64 ≠ layoutTag ScalarType.f64 ∧
    ¬ (∀ t : ScalarType, IMPL_IDX t = layoutTag t) := by
  refine ⟨rfl, rfl, rfl, by decide, fun hall => by have := hall .f64; simp [IMPL_IDX, layoutTag] at this⟩

/-- Claim C10.  For every glyph-buffer state, `has_glyphs()` is the exact
negation of `has_text()`: the two queries are mutually exclusive and
exhaustive, because `has_glyphs` is defined as the absence of the
unicode-content flag. -/
theorem C10_has_glyphs_negates_has_text (g : GlyphBufferState) :
    (has_glyphs g = ! has_text g) ∧
    (has_glyphs g ≠ has_text g) ∧
    (has_glyphs g = true ∨ has_text g = true) ∧
    ¬ (has_glyphs g = true ∧ has_text g = true) := by
  unfold has_glyphs
  cases h : has_text g <;> simp

/-- Claim C8.  `create_decoder()` / `create_encoder()` return an absent value
exactly when the codec lacks the Read / Write capability, and otherwise a
decoder / encoder bound to that codec; the absent case is an option, not an
error. -/
theorem C8_capability_checks (c : ImageCodecData) :
    (create_decoder c = none ↔ c.features.read = false) ∧
    (c.features.read = true → create_decoder c = some ⟨c⟩) ∧
    (create_encoder c = none ↔ c.features.write = false) ∧
    (c.features.write = true → create_encoder c = some ⟨c⟩) := by
  unfold create_decoder create_encoder blImageCodecCreateDecoder blImageCodecCreateEncoder
  cases hr : c.features.read <;> cases hw : c.features.write <;>
    simp [Except.toOption]

/-- Witness for C8 at a read-only codec: decoder creation succeeds and is
bound to the codec, encoder creation is absent. -/
theorem C8_capability_checks_witness :
    create_decoder ⟨⟨true, false⟩⟩ = some ⟨⟨⟨true, false⟩⟩⟩ ∧
    create_encoder ⟨⟨true, false⟩⟩ = none :=
  ⟨(C8_capability_checks ⟨⟨true, false⟩⟩).2.1 rfl,
   (C8_capability_checks ⟨⟨true, false⟩⟩).2.2.1.mpr rfl⟩

/-- Claim C9.  Array equality is element-wise value equality of the observed
buffers, independent of which backing allocation each handle references,
while `ImageCodec` / `ImageDecoder` / `ImageEncoder` equality holds exactly
when the two handles reference the same backing allocation; concretely, two
distinct allocations with equal contents make arrays equal but codec handles
unequal. -/
theorem C9_value_vs_identity_equality {α : Type} [DecidableEq α] :
    (∀ (s : Store α) (h1 h2 : BLHandle),
      arrayEquals s h1 h2 = true ↔ readHandle s h1 = readHandle s h2) ∧
    (∀ h1 h2 : BLHandle,
      (imageCodecEq h1 h2 = true ↔ h1.implId = h2.implId) ∧
      (imageDecoderEq h1 h2 = true ↔ h1.implId = h2.implId) ∧
      (imageEncoderEq h1 h2 = true ↔ h1.implId = h2.implId)) ∧
    (arrayEquals (⟨[⟨[5], 1⟩, ⟨[5], 1⟩]⟩ : Store Nat) ⟨0⟩ ⟨1⟩ = true ∧
      imageCodecEq ⟨0⟩ ⟨1⟩ = false) := by
  refine ⟨fun s h1 h2 => ?_, fun h1 h2 => ?_, by decide⟩
  · simp [arrayEquals]
  · simp [imageCodecEq, imageDecoderEq, imageEncoderEq, impl_equals]

/-- Claim C4.  `try_reserve(n)` either succeeds with capacity ≥ n and the
elements (hence order) intact, or fails with OutOfMemory leaving length,
capacity and contents unchanged. -/
theorem C4_try_reserve_all_or_nothing (allocOk : Nat → Bool) (a : BLArray α) (n : Nat) :
    ((try_reserve allocOk a n).1 = .ok () →
      n ≤ (try_reserve allocOk a n).2.capacity ∧
      (try_reserve allocOk a n).2.data = a.data) ∧
    ((try_reserve allocOk a n).1 = .error .outOfMemory →
      (try_reserve allocOk a n).2 = a) := by
  unfold try_reserve blArrayReserve
  split
  next h => exact ⟨fun _ => ⟨h, rfl⟩, by simp⟩
  · split
    · exact ⟨fun _ => ⟨le_refl n, rfl⟩, by simp⟩
    · exact ⟨by simp, fun _ => rfl⟩

/-- Witness for C4: a failing reservation (allocator refuses) leaves the
array `[7]` with capacity 1 untouched, and a succeeding one reaches the
requested capacity. -/
theorem C4_try_reserve_witness :
    (try_reserve (fun _ => false) (⟨[7], 1⟩ : BLArray Nat) 5).2 = ⟨[7], 1⟩ ∧
    5 ≤ (try_reserve (fun _ => true) (⟨[7], 1⟩ : BLArray Nat) 5).2.capacity :=
  ⟨(C4_try_reserve_all_or_nothing (fun _ => false) ⟨[7], 1⟩ 5).2 rfl,
   ((C4_try_reserve_all_or_nothing (fun _ => true) ⟨[7], 1⟩ 5).1 rfl).1⟩

/-- Claim C7.  `resize(n, fill)` with `n > len` appends exactly `n - len`
clones of `fill` after the unchanged original elements; with `n < len` it
truncates to the first `n` originals; `truncate(n)` with `n ≥ len` is a no-op
and with `n < len` drops the tail down to length `n`. -/
theorem C7_resize_truncate (a : BLArray α) (n : Nat) (fill : α) :
    (a.len < n →
      (resize a n fill).data = a.data ++ List.replicate (n - a.len) fill) ∧
    (n < a.len → (resize a n fill).data = a.data.take n) ∧
    (a.len ≤ n → capInv a → truncate a n = a) ∧
    (n < a.len → (truncate a n).data = a.data.take n ∧ (truncate a n).len = n) := by
  unfold resize truncate blArrayResize capInv BLArray.len
  refine ⟨fun hlt => ?_, fun hgt => ?_, fun hge hinv => ?_, fun hgt => ?_⟩
  · rw [List.take_of_length_le (by omega), List.take_replicate]
    simp [Nat.min_self]
  · simp [Nat.sub_eq_zero_of_le (le_of_lt hgt)]
  · obtain ⟨d, c⟩ := a
    simp only at hge hinv ⊢
    rw [Nat.min_eq_right hge]
    simp [List.take_of_length_le (le_refl d.length), Nat.max_eq_left]
    omega
  · rw [Nat.min_eq_left (le_of_lt hgt)]
    simp [List.length_take, Nat.min_eq_left (le_of_lt hgt)]

/-- Witness for C7 on `[1,2,3]` (capacity 3): growing to 5 with fill 9,
shrinking to 1, truncating with an over-long bound, and truncating to 2. -/
theorem C7_resize_truncate_witness :
    (resize (⟨[1, 2, 3], 3⟩ : BLArray Nat) 5 9).data = [1, 2, 3, 9, 9] ∧
    (resize (⟨[1, 2, 3], 3⟩ : BLArray Nat) 1 9).data = [1] ∧
    truncate (⟨[1, 2, 3], 3⟩ : BLArray Nat) 5 = ⟨[1, 2, 3], 3⟩ ∧
    (truncate (⟨[1, 2, 3], 3⟩ : BLArray Nat) 2).data = [1, 2] := by
  refine ⟨?_, ?_, ?_, ?_⟩
  · have h := (C7_resize_truncate (⟨[1, 2, 3], 3⟩ : BLArray Nat) 5 9).1 (by decide)
    simpa using h
  · have h := (C7_resize_truncate (⟨[1, 2, 3], 3⟩ : BLArray Nat) 1 9).2.1 (by decide)
    simpa using h
  · exact (C7_resize_truncate (⟨[1, 2, 3], 3⟩ : BLArray Nat) 5 9).2.2.1 (by decide) (by decide)
  · exact ((C7_resize_truncate (⟨[1, 2, 3], 3⟩ : BLArray Nat) 2 9).2.2.2 (by decide)).1

/-- The capacity invariant survives one structural operation: helper for C6. -/
theorem capInv_applyOp (a : BLArray α) (op : ArrayOp α) (h : capInv a) :
    capInv (applyOp a op) := by
  cases op with
  | push x =>
      simp only [applyOp, scalarPush, blArrayAppendItem, capInv, BLArray.len] at *
      simp [Nat.le_max_right]
  | reserve n =>
      simp only [applyOp, reserve, blArrayReserve, capInv, BLArray.len] at *
      split <;> simp <;> omega
  | tryReserve ok n =>
      simp only [applyOp, blArrayReserve, capInv, BLArray.len] at *
      split
      · exact h
      · split <;> simp <;> omega
  | extendFromSlice xs =>
      simp only [applyOp, extend_from_slice, blArrayAppendView, capInv, BLArray.len] at *
      simp [Nat.le_max_right]
  | insert i x =>
      simp only [applyOp, scalarInsert, blArrayInsertItem, capInv, BLArray.len] at *
      calc (a.data.insertIdx i x).length ≤ a.data.length + 1 :=
            List.length_insertIdx_le_succ a.data x i
        _ ≤ max a.capacity (a.data.length + 1) := Nat.le_max_right _ _

/-- The capacity invariant survives any operation sequence from an
invariant-satisfying start: helper for C6. -/
theorem capInv_foldl (ops : List (ArrayOp α)) :
    ∀ a : BLArray α, capInv a → capInv (ops.foldl applyOp a) := by
  induction ops with
  | nil => exact fun a h => h
  | cons op ops ih => exact fun a h => ih (applyOp a op) (capInv_applyOp a op h)

/-- Claim C6.  `len() ≤ capacity()` holds for the empty array and for
`with_capacity(n)`, and is preserved across every finite sequence of `push`,
`reserve`, `try_reserve`, `extend_from_slice` and `insert` operations started
from either; quantifying over all sequences covers the state after every
intermediate operation. -/
theorem C6_capacity_invariant {α : Type} (ops : List (ArrayOp α)) (n : Nat) :
    capInv (Array_new α) ∧
    capInv (with_capacity α n) ∧
    capInv (ops.foldl applyOp (Array_new α)) ∧
    capInv (ops.foldl applyOp (with_capacity α n)) := by
  have hnew : capInv (Array_new α) := by simp [capInv, Array_new, BLArray.len]
  have hcap : capInv (with_capacity α n) := by
    simp only [with_capacity, reserve, blArrayReserve, Array_new, capInv, BLArray.len]
    split <;> simp
  exact ⟨hnew, hcap, capInv_foldl ops _ hnew, capInv_foldl ops _ hcap⟩

/-- The fold underlying `max_by_key` returns one of the candidates: helper
for C2. -/
theorem foldl_mbkStep_mem (key : α → Nat) (l : List α) :
    ∀ a : α, l.foldl (mbkStep key) a ∈ a :: l := by
  induction l with
  | nil => intro a; simp
  | cons y l ih =>
      intro a
      rw [List.foldl_cons]
      have hstep : mbkStep key a y = a ∨ mbkStep key a y = y := by
        unfold mbkStep; split <;> simp
      rcases List.mem_cons.1 (ih (mbkStep key a y)) with h | h
      · rcases hstep with h1 | h1 <;> rw [h, h1] <;> simp
      · simp [h]

/-- The fold underlying `max_by_key` dominates the start and every candidate:
helper for C2. -/
theorem foldl_mbkStep_max (key : α → Nat) (l : List α) :
    ∀ a : α, key a ≤ key (l.foldl (mbkStep key) a) ∧
      ∀ x ∈ l, key x ≤ key (l.foldl (mbkStep key) a) := by
  induction l with
  | nil => intro a; simp
  | cons y l ih =>
      intro a
      rw [List.foldl_cons]
      obtain ⟨h1, h2⟩ := ih (mbkStep key a y)
      have hay : key a ≤ key (mbkStep key a y) ∧ key y ≤ key (mbkStep key a y) := by
        constructor <;> (unfold mbkStep; split <;> omega)
      refine ⟨le_trans hay.1 h1, fun x hx => ?_⟩
      rcases List.mem_cons.1 hx with rfl | hx
      · exact le_trans hay.2 h1
      · exact h2 x hx

/-- `mbkStep` yields the newcomer when the incumbent does not strictly win:
helper for C2. -/
theorem mbkStep_eq_right (key : α → Nat) {acc y : α} (h : key acc ≤ key y) :
    mbkStep key acc y = y := by
  unfold mbkStep; rw [if_neg (by omega)]

/-- `mbkStep` keeps the incumbent when it strictly wins: helper for C2. -/
theorem mbkStep_eq_left (key : α → Nat) {acc y : α} (h : key y < key acc) :
    mbkStep key acc y = acc := by
  unfold mbkStep; rw [if_pos h]

/-- The fold underlying `max_by_key` lands on the decomposition point whose
left part it dominates and whose right part it strictly dominates — i.e. the
last maximum: helper for C2. -/
theorem foldl_mbkStep_last (key : α → Nat) (l : List α) :
    ∀ (a c : α) (u v : List α), a :: l = u ++ c :: v →
      (∀ x ∈ u, key x ≤ key c) → (∀ x ∈ v, key x < key c) →
      l.foldl (mbkStep key) a = c := by
  induction l using List.reverseRecOn with
  | nil =>
      intro a c u v heq hu hv
      cases u with
      | nil =>
          simp only [List.nil_append] at heq
          exact (List.cons.injEq .. ▸ heq).1 ▸ rfl
      | cons b u' =>
          simp only [List.cons_append] at heq
          have h2 := (List.cons.injEq .. ▸ heq).2
          exact absurd h2.symm (by simp)
  | append_singleton l y ih =>
      intro a c u v heq hu hv
      rw [List.foldl_append, List.foldl_cons, List.foldl_nil]
      rcases List.eq_nil_or_concat v with rfl | ⟨v', b, rfl⟩
      · have heq2 : (a :: l) ++ [y] = u ++ [c] := by simpa using heq
        obtain ⟨hul, hyc⟩ := List.append_inj' heq2 (by simp)
        obtain rfl : y = c := by simpa using hyc
        have hmem := foldl_mbkStep_mem key l a
        have hle : key (l.foldl (mbkStep key) a) ≤ key y :=
          hu _ (hul ▸ hmem)
        exact mbkStep_eq_right key hle
      · have heq2 : (a :: l) ++ [y] = (u ++ c :: v') ++ [b] := by
          simpa [List.concat_eq_append, List.append_assoc] using heq
        obtain ⟨hul, hyb⟩ := List.append_inj' heq2 (by simp)
        obtain rfl : y = b := by simpa using hyb
        have hc' : l.foldl (mbkStep key) a = c :=
          ih a c u v' hul hu (fun x hx => hv x (by simp [hx]))
        rw [hc']
        have hyc : key y < key c := hv y (by simp)
        exact mbkStep_eq_left key hyc

/-- Claim C2 (amended).  On a non-empty codec list, `find_codec_by_data`
returns a codec whose `inspect_data` score is maximal; the codec returned is
the one determined by the decomposition whose tail it strictly dominates,
i.e. the **last** codec in registration order attaining the maximum (Rust's
`max_by_key` keeps the later of equally-scored candidates), not the first. -/
theorem C2_detection_picks_last_max (inspect : κ → List Nat → Nat)
    (codecs : List κ) (blob : List Nat) :
    (∀ c, find_codec_by_data inspect codecs blob = some c →
      c ∈ codecs ∧ ∀ x ∈ codecs, inspect x blob ≤ inspect c blob) ∧
    (codecs ≠ [] → (find_codec_by_data inspect codecs blob).isSome = true) ∧
    (∀ u c v, codecs = u ++ c :: v →
      (∀ x ∈ u, inspect x blob ≤ inspect c blob) →
      (∀ x ∈ v, inspect x blob < inspect c blob) →
      find_codec_by_data inspect codecs blob = some c) := by
  cases codecs with
  | nil =>
      refine ⟨fun c hc => by simp [find_codec_by_data, maxByKey] at hc,
        fun h => absurd rfl h, fun u c v heq _ _ => absurd heq (by simp)⟩
  | cons x xs =>
      refine ⟨fun c hc => ?_, fun _ => rfl, fun u c v heq hu hv => ?_⟩
      · have hc' : xs.foldl (mbkStep fun c => inspect c blob) x = c := by
          simpa [find_codec_by_data, maxByKey] using hc
        obtain ⟨h1, h2⟩ := foldl_mbkStep_max (fun c => inspect c blob) xs x
        refine ⟨hc' ▸ foldl_mbkStep_mem _ xs x, fun z hz => ?_⟩
        rcases List.mem_cons.1 hz with rfl | hz
        · exact hc' ▸ h1
        · exact hc' ▸ h2 z hz
      · have := foldl_mbkStep_last (fun c => inspect c blob) xs x c u v heq hu hv
        simpa [find_codec_by_data, maxByKey] using this

/-- Counterexample for C2 as stated: two registered codecs scoring equally
(both 5) on the same blob; the first-in-order codec is 10, but
`find_codec_by_data` returns 20, the later one. -/
theorem C2_first_max_counterexample :
    find_codec_by_data (fun (_ : Nat) _ => 5) [10, 20] [] = some 20 ∧
    (fun (_ : Nat) (_ : List Nat) => 5) 10 [] =
      (fun (_ : Nat) (_ : List Nat) => 5) 20 [] ∧
    find_codec_by_data (fun (_ : Nat) _ => 5) [10, 20] [] ≠ some 10 := by
  refine ⟨rfl, rfl, by decide⟩

/-- Witness for C2 (amended) on codecs `[3, 7]` scored by their own id: the
decomposition `[3] ++ 7 :: []` has its left part dominated and its empty tail
strictly dominated, so detection returns codec 7. -/
theorem C2_detection_witness :
    find_codec_by_data (fun (c : Nat) _ => c) [3, 7] [] = some 7 :=
  (C2_detection_picks_last_max (fun (c : Nat) _ => c) [3, 7] []).2.2
    [3] 7 [] rfl (by decide) (by decide)

/-- Claim C3.  Cloning a handle is a reference-count bump that leaves both
handles observing identical contents; a mutation through the clone (push,
which first realizes copy-on-write through `makeMutable`) leaves the contents
observed through the original handle unchanged while the clone observes the
appended buffer. -/
theorem C3_cow_isolation {α : Type} (s : Store α) (h : BLHandle) (x : α)
    (hlive : live s h = true) :
    readHandle (cloneShared s h).1 (cloneShared s h).2 =
      readHandle (cloneShared s h).1 h ∧
    readHandle (cloneShared s h).1 h = readHandle s h ∧
    readHandle (pushCow (cloneShared s h).1 (cloneShared s h).2 x).1 h =
      readHandle s h ∧
    readHandle (pushCow (cloneShared s h).1 (cloneShared s h).2 x).1
      ((pushCow (cloneShared s h).1 (cloneShared s h).2 x).2) =
      readHandle s h ++ [x] := by
  obtain ⟨i⟩ := h
  unfold live at hlive
  cases himpl : s.impls[i]? with
  | none => rw [himpl] at hlive; simp at hlive
  | some impl =>
    rw [himpl] at hlive
    have hrc : 1 ≤ impl.refCount := by simpa using hlive
    have hi : i < s.impls.length := by
      by_contra hc
      push_neg at hc
      rw [List.getElem?_eq_none hc] at himpl
      exact absurd himpl (by simp)
    have hclone : cloneShared s ⟨i⟩ =
        (⟨s.impls.set i { impl with refCount := impl.refCount + 1 }⟩, ⟨i⟩) := by
      simp [cloneShared, himpl]
    rw [hclone]
    have hread0 : readHandle s ⟨i⟩ = impl.data := by
      simp [readHandle, himpl]
    have hset1 : (s.impls.set i { impl with refCount := impl.refCount + 1 })[i]? =
        some { impl with refCount := impl.refCount + 1 } := by
      rw [List.getElem?_set]
      simp [hi]
    have hread1 :
        readHandle (⟨s.impls.set i { impl with refCount := impl.refCount + 1 }⟩ : Store α)
          ⟨i⟩ = impl.data := by
      simp [readHandle, hset1]
    have hmm : makeMutable
        (⟨s.impls.set i { impl with refCount := impl.refCount + 1 }⟩ : Store α) ⟨i⟩ =
        (⟨((s.impls.set i { impl with refCount := impl.refCount + 1 }).set i
            { impl with refCount := impl.refCount + 1 - 1 })
          ++ [⟨impl.data, 1⟩]⟩, ⟨s.impls.length⟩) := by
      simp only [makeMutable, hset1]
      rw [if_neg (by simp; omega)]
      simp [List.length_set]
    have hlen2 : ((s.impls.set i { impl with refCount := impl.refCount + 1 }).set i
        { impl with refCount := impl.refCount + 1 - 1 }).length = s.impls.length := by
      simp [List.length_set]
    have hgetNew : (((s.impls.set i { impl with refCount := impl.refCount + 1 }).set i
          { impl with refCount := impl.refCount + 1 - 1 }) ++ [⟨impl.data, 1⟩])[s.impls.length]? =
        some ⟨impl.data, 1⟩ := by
      rw [show (s.impls.length) =
          ((s.impls.set i { impl with refCount := impl.refCount + 1 }).set i
            { impl with refCount := impl.refCount + 1 - 1 }).length from hlen2.symm,
        List.getElem?_concat_length]
    have hreadNew : readHandle
        (⟨((s.impls.set i { impl with refCount := impl.refCount + 1 }).set i
            { impl with refCount := impl.refCount + 1 - 1 }) ++ [⟨impl.data, 1⟩]⟩ : Store α)
        ⟨s.impls.length⟩ = impl.data := by
      simp only [readHandle]
      rw [hgetNew]
    have hpush : pushCow
        (⟨s.impls.set i { impl with refCount := impl.refCount + 1 }⟩ : Store α) ⟨i⟩ x =
        (⟨(((s.impls.set i { impl with refCount := impl.refCount + 1 }).set i
              { impl with refCount := impl.refCount + 1 - 1 }) ++
            [({ data := impl.data, refCount := 1 } : BLImpl α)]).set
            s.impls.length ({ data := impl.data ++ [x], refCount := 1 } : BLImpl α)⟩,
         ⟨s.impls.length⟩) := by
      simp only [pushCow, hmm, hreadNew, setData, hgetNew]
    rw [hpush, hread0, hread1]
    refine ⟨rfl, rfl, ?_, ?_⟩
    · simp only [readHandle]
      rw [List.getElem?_set, if_neg (by omega), List.getElem?_append,
        if_pos (by rw [hlen2]; exact hi), List.getElem?_set, if_pos rfl, if_pos (by simp [hi])]
    · simp only [readHandle]
      rw [List.getElem?_set, if_pos rfl,
        if_pos (by rw [List.length_append, hlen2]; simp)]

/-- Witness for C3: a store with one allocation `[1,2,3]` (refcount 1), its
handle cloned and then pushed with 4 through the clone — the original still
reads `[1,2,3]`, the clone reads `[1,2,3,4]`. -/
theorem C3_cow_isolation_witness :
    live (⟨[⟨[1, 2, 3], 1⟩]⟩ : Store Nat) ⟨0⟩ = true ∧
    readHandle (pushCow (cloneShared (⟨[⟨[1, 2, 3], 1⟩]⟩ : Store Nat) ⟨0⟩).1
        (cloneShared (⟨[⟨[1, 2, 3], 1⟩]⟩ : Store Nat) ⟨0⟩).2 4).1 ⟨0⟩ = [1, 2, 3] ∧
    readHandle (pushCow (cloneShared (⟨[⟨[1, 2, 3], 1⟩]⟩ : Store Nat) ⟨0⟩).1
        (cloneShared (⟨[⟨[1, 2, 3], 1⟩]⟩ : Store Nat) ⟨0⟩).2 4).1
      ((pushCow (cloneShared (⟨[⟨[1, 2, 3], 1⟩]⟩ : Store Nat) ⟨0⟩).1
        (cloneShared (⟨[⟨[1, 2, 3], 1⟩]⟩ : Store Nat) ⟨0⟩).2 4).2) = [1, 2, 3, 4] := by
  have h := C3_cow_isolation (⟨[⟨[1, 2, 3], 1⟩]⟩ : Store Nat) ⟨0⟩ 4 (by decide)
  exact ⟨by decide, h.2.2.1.trans (by decide), h.2.2.2.trans (by decide)⟩

/-- Witness for C10 at two concrete flag words: with the unicode-content bit
set only `has_text` holds, with it clear only `has_glyphs` holds. -/
theorem C10_has_glyphs_negates_has_text_witness :
    has_glyphs ⟨0⟩ = true ∧
    has_glyphs ⟨2 ^ 28⟩ = ! has_text ⟨2 ^ 28⟩ :=
  ⟨((C10_has_glyphs_negates_has_text ⟨0⟩).2.2.1).resolve_right (by decide),
   (C10_has_glyphs_negates_has_text ⟨2 ^ 28⟩).1⟩
